import Mathlib

/-!
Verification of the `global_counter` Rust library (src/lib.rs) against its
natural-language specification.

The embedding is a sequential interleaving model: each operation of a buffering
counter is tagged with the id of the calling thread, state is passed explicitly,
and a trace is a list of operations executed in order.  The thread-local storage
of `ApproxCounter` and `FlushingCounter` is modelled as a total function from
thread ids to the value of that thread's private accumulator.  `usize`
arithmetic wraps modulo `2 ^ 64` (the reference 64-bit target); the wrap is kept
explicit with `% USIZE` wherever the source performs `+= 1` or `fetch_add`.
-/

/-- Modulus of `usize` on the 64-bit reference target. -/
def USIZE : Nat := 2 ^ 64

/-- The memory orderings of `std::sync::atomic::Ordering` used by the library. -/
inductive MemOrd where
  | Relaxed
  | Release
  | Acquire
  | AcqRel
  | SeqCst
deriving DecidableEq, Repr

/-- `FlushingCounter` (src/lib.rs:39-45): a shared atomic accumulator plus one
private accumulator per thread, modelled as a function from thread ids. -/
structure FlushingCounter where
  global_counter : Nat
  locals : Nat → Nat

/-- `FlushingCounter::new` (src/lib.rs:50-56): shared accumulator starts at
`start`, every thread-local cell starts at 0. -/
def FlushingCounter.new (start : Nat) : FlushingCounter :=
  { global_counter := start, locals := fun _ => 0 }

/-- `FlushingCounter::inc` (src/lib.rs:60-66): `*tlc += 1` on the calling
thread's private cell (wrapping `usize` addition). -/
def FlushingCounter.inc (c : FlushingCounter) (t : Nat) : FlushingCounter :=
  { c with locals := Function.update c.locals t ((c.locals t + 1) % USIZE) }

/-- `FlushingCounter::get` (src/lib.rs:70-72): loads the shared accumulator. -/
def FlushingCounter.get (c : FlushingCounter) : Nat :=
  c.global_counter

/-- `FlushingCounter::flush` (src/lib.rs:78-84): `fetch_add` the private cell
into the shared accumulator, then reset the private cell to 0. -/
def FlushingCounter.flush (c : FlushingCounter) (t : Nat) : FlushingCounter :=
  { global_counter := (c.global_counter + c.locals t) % USIZE,
    locals := Function.update c.locals t 0 }

/-- Ordering of the `load` in `FlushingCounter::get` (src/lib.rs:71). -/
def FlushingCounter.getOrd : MemOrd := MemOrd.Relaxed

/-- Ordering of the `fetch_add` in `FlushingCounter::flush` (src/lib.rs:81). -/
def FlushingCounter.flushOrd : MemOrd := MemOrd.Relaxed

/-- `ApproxCounter` (src/lib.rs:108-115): a spill threshold (called
`resolution` at construction), a shared atomic accumulator, and one private
accumulator per thread. -/
structure ApproxCounter where
  threshold : Nat
  global_counter : Nat
  locals : Nat → Nat

/-- `ApproxCounter::new` (src/lib.rs:123-130). -/
def ApproxCounter.new (start resolution : Nat) : ApproxCounter :=
  { threshold := resolution, global_counter := start, locals := fun _ => 0 }

/-- `ApproxCounter::inc` (src/lib.rs:136-147): `*tlc += 1`; if the private cell
reached the threshold, `fetch_add` its whole value into the shared accumulator
and reset it to 0. -/
def ApproxCounter.inc (c : ApproxCounter) (t : Nat) : ApproxCounter :=
  let l := (c.locals t + 1) % USIZE
  if c.threshold ≤ l then
    { c with
      global_counter := (c.global_counter + l) % USIZE,
      locals := Function.update c.locals t 0 }
  else
    { c with locals := Function.update c.locals t l }

/-- `ApproxCounter::get` (src/lib.rs:153-155): loads the shared accumulator. -/
def ApproxCounter.get (c : ApproxCounter) : Nat :=
  c.global_counter

/-- `ApproxCounter::flush` (src/lib.rs:167-173): unconditionally `fetch_add`
the private cell into the shared accumulator and reset it to 0. -/
def ApproxCounter.flush (c : ApproxCounter) (t : Nat) : ApproxCounter :=
  { c with
    global_counter := (c.global_counter + c.locals t) % USIZE,
    locals := Function.update c.locals t 0 }

/-- Ordering of the spilling `fetch_add` in `ApproxCounter::inc`
(src/lib.rs:143). -/
def ApproxCounter.incSpillOrd : MemOrd := MemOrd.SeqCst

/-- Ordering of the `load` in `ApproxCounter::get` (src/lib.rs:154). -/
def ApproxCounter.getOrd : MemOrd := MemOrd.SeqCst

/-- Ordering of the `fetch_add` in `ApproxCounter::flush` (src/lib.rs:170). -/
def ApproxCounter.flushOrd : MemOrd := MemOrd.SeqCst

/-- One operation of a buffering counter, tagged with the calling thread. -/
inductive Op where
  | inc (t : Nat)
  | flush (t : Nat)
deriving DecidableEq, Repr

/-- Whether an operation is an increment. -/
def Op.isInc : Op → Bool
  | .inc _ => true
  | .flush _ => false

/-- The thread performing an operation. -/
def Op.tid : Op → Nat
  | .inc t => t
  | .flush t => t

/-- Execute one traced operation on an `ApproxCounter`. -/
def ApproxCounter.step (c : ApproxCounter) : Op → ApproxCounter
  | .inc t => c.inc t
  | .flush t => c.flush t

/-- Run a whole trace on a freshly constructed `ApproxCounter`. -/
def ApproxCounter.run (start resolution : Nat) (trace : List Op) : ApproxCounter :=
  trace.foldl ApproxCounter.step (ApproxCounter.new start resolution)

/-- Execute one traced operation on a `FlushingCounter`. -/
def FlushingCounter.step (c : FlushingCounter) : Op → FlushingCounter
  | .inc t => c.inc t
  | .flush t => c.flush t

/-- Run a whole trace on a freshly constructed `FlushingCounter`. -/
def FlushingCounter.run (start : Nat) (trace : List Op) : FlushingCounter :=
  trace.foldl FlushingCounter.step (FlushingCounter.new start)

/-- The true number of `inc` calls in a trace. -/
def incCount (trace : List Op) : Nat :=
  (trace.filter Op.isInc).length

/-- The distinct ids of threads that have ever incremented, in a trace. -/
def incTids (trace : List Op) : List Nat :=
  ((trace.filter Op.isInc).map Op.tid).dedup

/-- The same set of incrementing threads, as a `Finset`. -/
def incTidsF (trace : List Op) : Finset Nat :=
  ((trace.filter Op.isInc).map Op.tid).toFinset

/-- Number of increments thread `t` has performed since its last flush, read
off the trace.  `pending t trace = 0` is exactly the §4.4 flush discipline for
thread `t`: no increment by `t` after `t`'s last flush. -/
def pending (t : Nat) (trace : List Op) : Nat :=
  trace.foldl
    (fun acc op =>
      match op with
      | .inc s => if s = t then acc + 1 else acc
      | .flush s => if s = t then 0 else acc)
    0

/-- The flush discipline of §4.4: every thread that ever incremented has
flushed after its last increment. -/
def disciplined (trace : List Op) : Bool :=
  (incTids trace).all fun t => pending t trace == 0

/-! ### Trace bookkeeping lemmas -/

theorem incCount_append (l l' : List Op) :
    incCount (l ++ l') = incCount l + incCount l' := by
  simp [incCount, List.filter_append]

theorem incCount_inc (s : Nat) : incCount [Op.inc s] = 1 := by
  simp [incCount, Op.isInc]

theorem incCount_flush (s : Nat) : incCount [Op.flush s] = 0 := by
  simp [incCount, Op.isInc]

theorem incTidsF_append_inc (l : List Op) (s : Nat) :
    incTidsF (l ++ [Op.inc s]) = insert s (incTidsF l) := by
  ext x
  simp [incTidsF, List.filter_append, Op.isInc, Op.tid, List.toFinset_append,
    or_comm]

theorem incTidsF_append_flush (l : List Op) (s : Nat) :
    incTidsF (l ++ [Op.flush s]) = incTidsF l := by
  simp [incTidsF, List.filter_append, Op.isInc]

theorem pending_append_inc (t s : Nat) (l : List Op) :
    pending t (l ++ [Op.inc s]) = if s = t then pending t l + 1 else pending t l := by
  simp [pending, List.foldl_append]

theorem pending_append_flush (t s : Nat) (l : List Op) :
    pending t (l ++ [Op.flush s]) = if s = t then 0 else pending t l := by
  simp [pending, List.foldl_append]

theorem approx_run_append (start res : Nat) (l : List Op) (op : Op) :
    ApproxCounter.run start res (l ++ [op]) = (ApproxCounter.run start res l).step op := by
  simp [ApproxCounter.run, List.foldl_append]

theorem flushing_run_append (start : Nat) (l : List Op) (op : Op) :
    FlushingCounter.run start (l ++ [op]) = (FlushingCounter.run start l).step op := by
  simp [FlushingCounter.run, List.foldl_append]

/-! ### Sums of pointwise-updated thread-local maps -/

theorem sum_update_mem (S : Finset Nat) (f : Nat → Nat) {s : Nat} (hs : s ∈ S) (v : Nat) :
    (∑ t ∈ S, Function.update f s v t) + f s = (∑ t ∈ S, f t) + v := by
  have h1 := Finset.sum_update_of_mem hs f v
  have h2 := Finset.add_sum_erase S f hs
  rw [Finset.erase_eq] at h2
  omega

theorem sum_update_not_mem (S : Finset Nat) (f : Nat → Nat) {s : Nat} (hs : s ∉ S) (v : Nat) :
    (∑ t ∈ S, Function.update f s v t) = ∑ t ∈ S, f t :=
  Finset.sum_congr rfl fun t ht =>
    Function.update_noteq (by rintro rfl; exact hs ht) v f

/-! ### The accounting invariant of the buffering counters -/

/-- Invariant of `ApproxCounter` along a trace: the threshold is the configured
resolution, shared + all private accumulators account exactly for `start` plus
the number of increments, threads that never incremented have an empty private
accumulator, and every private accumulator is at most `resolution - 1` at
rest. -/
def ApproxInv (start res : Nat) (trace : List Op) (c : ApproxCounter) : Prop :=
  c.threshold = res ∧
  c.global_counter + (∑ t ∈ incTidsF trace, c.locals t) = start + incCount trace ∧
  (∀ t, t ∉ incTidsF trace → c.locals t = 0) ∧
  ∀ t, c.locals t ≤ res - 1

theorem approx_run_inv (start res : Nat) :
    ∀ trace : List Op, start + incCount trace < USIZE →
      ApproxInv start res trace (ApproxCounter.run start res trace) := by
  intro trace
  induction trace using List.reverseRecOn with
  | nil =>
    intro _
    refine ⟨rfl, ?_, fun t _ => rfl, fun t => Nat.zero_le _⟩
    simp [ApproxCounter.run, ApproxCounter.new, incTidsF, incCount]
  | append_singleton l op ih =>
    intro hov
    have hcap : incCount (l ++ [op]) = incCount l + incCount [op] := incCount_append l [op]
    obtain ⟨hth, hsum, hzero, hbd⟩ := ih (by omega)
    rw [approx_run_append]
    set c := ApproxCounter.run start res l with hc
    cases op with
    | inc s =>
      have hcnt : incCount (l ++ [Op.inc s]) = incCount l + 1 := by
        rw [hcap, incCount_inc]
      have hgl : c.global_counter + c.locals s ≤ start + incCount l := by
        by_cases hs : s ∈ incTidsF l
        · have := Finset.single_le_sum (f := c.locals) (fun i _ => Nat.zero_le _) hs
          omega
        · rw [hzero s hs]; omega
      have hmod1 : (c.locals s + 1) % USIZE = c.locals s + 1 :=
        Nat.mod_eq_of_lt (by omega)
      show ApproxInv start res (l ++ [Op.inc s]) (c.inc s)
      rw [ApproxInv, incTidsF_append_inc, hcnt]
      unfold ApproxCounter.inc
      rw [hmod1, hth]
      by_cases hsp : res ≤ c.locals s + 1
      · rw [if_pos hsp]
        have hmod2 : (c.global_counter + (c.locals s + 1)) % USIZE
            = c.global_counter + (c.locals s + 1) := Nat.mod_eq_of_lt (by omega)
        dsimp only
        refine ⟨rfl, ?_, ?_, ?_⟩
        · show (c.global_counter + (c.locals s + 1)) % USIZE
              + (∑ t ∈ insert s (incTidsF l), Function.update c.locals s 0 t)
              = start + (incCount l + 1)
          rw [hmod2]
          by_cases hs : s ∈ incTidsF l
          · rw [Finset.insert_eq_self.mpr hs]
            have hk := sum_update_mem (incTidsF l) c.locals hs 0
            omega
          · rw [Finset.sum_insert hs, Function.update_same,
              sum_update_not_mem (incTidsF l) c.locals hs 0, hzero s hs]
            omega
        · intro t ht
          rw [Finset.mem_insert, not_or] at ht
          rw [Function.update_noteq ht.1, hzero t ht.2]
        · intro t
          by_cases hts : t = s
          · subst hts; rw [Function.update_same]; exact Nat.zero_le _
          · rw [Function.update_noteq hts]; exact hbd t
      · rw [if_neg hsp]
        have hlt : c.locals s + 1 < res := by omega
        dsimp only
        refine ⟨rfl, ?_, ?_, ?_⟩
        · show c.global_counter
              + (∑ t ∈ insert s (incTidsF l), Function.update c.locals s (c.locals s + 1) t)
              = start + (incCount l + 1)
          by_cases hs : s ∈ incTidsF l
          · rw [Finset.insert_eq_self.mpr hs]
            have hk := sum_update_mem (incTidsF l) c.locals hs (c.locals s + 1)
            omega
          · rw [Finset.sum_insert hs, Function.update_same,
              sum_update_not_mem (incTidsF l) c.locals hs (c.locals s + 1), hzero s hs]
            omega
        · intro t ht
          rw [Finset.mem_insert, not_or] at ht
          rw [Function.update_noteq ht.1, hzero t ht.2]
        · intro t
          by_cases hts : t = s
          · subst hts; rw [Function.update_same]; omega
          · rw [Function.update_noteq hts]; exact hbd t
    | flush s =>
      have hcnt : incCount (l ++ [Op.flush s]) = incCount l := by
        rw [hcap, incCount_flush]
        omega
      have hgl : c.global_counter + c.locals s ≤ start + incCount l := by
        by_cases hs : s ∈ incTidsF l
        · have := Finset.single_le_sum (f := c.locals) (fun i _ => Nat.zero_le _) hs
          omega
        · rw [hzero s hs]; omega
      have hmod : (c.global_counter + c.locals s) % USIZE
          = c.global_counter + c.locals s := Nat.mod_eq_of_lt (by omega)
      show ApproxInv start res (l ++ [Op.flush s]) (c.flush s)
      rw [ApproxInv, incTidsF_append_flush, hcnt]
      unfold ApproxCounter.flush
      dsimp only
      refine ⟨hth, ?_, ?_, ?_⟩
      · show (c.global_counter + c.locals s) % USIZE
            + (∑ t ∈ incTidsF l, Function.update c.locals s 0 t)
            = start + incCount l
        rw [hmod]
        by_cases hs : s ∈ incTidsF l
        · have hk := sum_update_mem (incTidsF l) c.locals hs 0
          omega
        · rw [sum_update_not_mem (incTidsF l) c.locals hs 0, hzero s hs]
          omega
      · intro t ht
        by_cases hts : t = s
        · subst hts; rw [Function.update_same]
        · rw [Function.update_noteq hts]; exact hzero t ht
      · intro t
        by_cases hts : t = s
        · subst hts; rw [Function.update_same]; exact Nat.zero_le _
        · rw [Function.update_noteq hts]; exact hbd t

/-- Invariant of `FlushingCounter` along a trace: shared + all private
accumulators account exactly for `start` plus the number of increments,
non-incrementing threads have an empty private accumulator, and each private
accumulator holds exactly the number of that thread's increments since its
last flush. -/
def FlushingInv (start : Nat) (trace : List Op) (c : FlushingCounter) : Prop :=
  c.global_counter + (∑ t ∈ incTidsF trace, c.locals t) = start + incCount trace ∧
  (∀ t, t ∉ incTidsF trace → c.locals t = 0) ∧
  ∀ t, c.locals t = pending t trace

theorem flushing_run_inv (start : Nat) :
    ∀ trace : List Op, start + incCount trace < USIZE →
      FlushingInv start trace (FlushingCounter.run start trace) := by
  intro trace
  induction trace using List.reverseRecOn with
  | nil =>
    intro _
    refine ⟨?_, fun t _ => rfl, fun t => rfl⟩
    simp [FlushingCounter.run, FlushingCounter.new, incTidsF, incCount]
  | append_singleton l op ih =>
    intro hov
    have hcap : incCount (l ++ [op]) = incCount l + incCount [op] := incCount_append l [op]
    obtain ⟨hsum, hzero, hpend⟩ := ih (by omega)
    rw [flushing_run_append]
    set c := FlushingCounter.run start l with hc
    cases op with
    | inc s =>
      have hcnt : incCount (l ++ [Op.inc s]) = incCount l + 1 := by
        rw [hcap, incCount_inc]
      have hgl : c.global_counter + c.locals s ≤ start + incCount l := by
        by_cases hs : s ∈ incTidsF l
        · have := Finset.single_le_sum (f := c.locals) (fun i _ => Nat.zero_le _) hs
          omega
        · rw [hzero s hs]; omega
      have hmod1 : (c.locals s + 1) % USIZE = c.locals s + 1 :=
        Nat.mod_eq_of_lt (by omega)
      show FlushingInv start (l ++ [Op.inc s]) (c.inc s)
      rw [FlushingInv, incTidsF_append_inc, hcnt]
      unfold FlushingCounter.inc
      rw [hmod1]
      dsimp only
      refine ⟨?_, ?_, ?_⟩
      · by_cases hs : s ∈ incTidsF l
        · rw [Finset.insert_eq_self.mpr hs]
          have hk := sum_update_mem (incTidsF l) c.locals hs (c.locals s + 1)
          omega
        · rw [Finset.sum_insert hs, Function.update_same,
            sum_update_not_mem (incTidsF l) c.locals hs (c.locals s + 1), hzero s hs]
          omega
      · intro t ht
        rw [Finset.mem_insert, not_or] at ht
        rw [Function.update_noteq ht.1, hzero t ht.2]
      · intro t
        rw [pending_append_inc]
        by_cases hts : t = s
        · subst hts
          rw [Function.update_same, if_pos rfl, hpend t]
        · rw [Function.update_noteq hts, if_neg (by omega), hpend t]
    | flush s =>
      have hcnt : incCount (l ++ [Op.flush s]) = incCount l := by
        rw [hcap, incCount_flush]
        omega
      have hgl : c.global_counter + c.locals s ≤ start + incCount l := by
        by_cases hs : s ∈ incTidsF l
        · have := Finset.single_le_sum (f := c.locals) (fun i _ => Nat.zero_le _) hs
          omega
        · rw [hzero s hs]; omega
      have hmod : (c.global_counter + c.locals s) % USIZE
          = c.global_counter + c.locals s := Nat.mod_eq_of_lt (by omega)
      show FlushingInv start (l ++ [Op.flush s]) (c.flush s)
      rw [FlushingInv, incTidsF_append_flush, hcnt]
      unfold FlushingCounter.flush
      dsimp only
      refine ⟨?_, ?_, ?_⟩
      · rw [hmod]
        by_cases hs : s ∈ incTidsF l
        · have hk := sum_update_mem (incTidsF l) c.locals hs 0
          omega
        · rw [sum_update_not_mem (incTidsF l) c.locals hs 0, hzero s hs]
          omega
      · intro t ht
        by_cases hts : t = s
        · subst hts; rw [Function.update_same]
        · rw [Function.update_noteq hts]; exact hzero t ht
      · intro t
        rw [pending_append_flush]
        by_cases hts : t = s
        · subst hts
          rw [Function.update_same, if_pos rfl]
        · rw [Function.update_noteq hts, if_neg (by omega), hpend t]

/-- If thread `t` has no increment after its last flush in the trace, its
private `ApproxCounter` accumulator is 0 at the end of the trace. -/
theorem approx_locals_of_pending_zero (start res t : Nat) :
    ∀ trace : List Op, pending t trace = 0 →
      (ApproxCounter.run start res trace).locals t = 0 := by
  intro trace
  induction trace using List.reverseRecOn with
  | nil => intro _; rfl
  | append_singleton l op ih =>
    intro hp
    rw [approx_run_append]
    cases op with
    | inc s =>
      rw [pending_append_inc] at hp
      by_cases hts : s = t
      · rw [if_pos hts] at hp; omega
      · rw [if_neg hts] at hp
        show ((ApproxCounter.run start res l).inc s).locals t = 0
        unfold ApproxCounter.inc
        dsimp only
        split <;>
          (dsimp only; rw [Function.update_noteq (Ne.symm hts)]; exact ih hp)
    | flush s =>
      rw [pending_append_flush] at hp
      show ((ApproxCounter.run start res l).flush s).locals t = 0
      unfold ApproxCounter.flush
      dsimp only
      by_cases hts : s = t
      · subst hts; rw [Function.update_same]
      · rw [Function.update_noteq (Ne.symm hts)]
        rw [if_neg hts] at hp
        exact ih hp

/-! ### Claim theorems for the buffering counters -/

/-- Claim C1: for an `ApproxCounter` with resolution ≥ 1, at every observation
point (after any trace of operations) `get()` is at most the true number of
increments plus `start`, and falls short of it by at most (number of threads
that ever incremented) × (resolution − 1); in particular a single thread that
only increments sees a shortfall of at most resolution − 1. -/
theorem approx_error_bound (start res : Nat) (trace : List Op)
    (hres : 1 ≤ res) (hov : start + incCount trace < USIZE) :
    (ApproxCounter.run start res trace).get ≤ start + incCount trace ∧
    start + incCount trace - (ApproxCounter.run start res trace).get
      ≤ (incTidsF trace).card * (res - 1) ∧
    ((∀ op ∈ trace, op = Op.inc 0) →
      start + incCount trace - (ApproxCounter.run start res trace).get ≤ res - 1) := by
  obtain ⟨hth, hsum, hzero, hbd⟩ := approx_run_inv start res trace hov
  set c := ApproxCounter.run start res trace with hc
  have hsumle : (∑ t ∈ incTidsF trace, c.locals t) ≤ (incTidsF trace).card * (res - 1) := by
    have h := Finset.sum_le_card_nsmul (incTidsF trace) c.locals (res - 1) fun t _ => hbd t
    simpa [smul_eq_mul] using h
  refine ⟨by rw [ApproxCounter.get]; omega, by rw [ApproxCounter.get]; omega, ?_⟩
  intro h0
  have hsub : incTidsF trace ⊆ {0} := by
    intro t ht
    rw [incTidsF, List.mem_toFinset, List.mem_map] at ht
    obtain ⟨op, hop, htid⟩ := ht
    have hmem : op ∈ trace := (List.mem_filter.mp hop).1
    have hop0 := h0 op hmem
    subst hop0
    simp only [Op.tid] at htid
    rw [Finset.mem_singleton]
    omega
  have hcard : (incTidsF trace).card ≤ 1 := by
    calc (incTidsF trace).card ≤ ({0} : Finset Nat).card := Finset.card_le_card hsub
    _ = 1 := Finset.card_singleton 0
  have hmul : (incTidsF trace).card * (res - 1) ≤ 1 * (res - 1) :=
    Nat.mul_le_mul_right _ hcard
  rw [ApproxCounter.get]
  omega

/-- Witness for C1 at `start = 0`, `resolution = 3`, two increments by
thread 0: the hypotheses hold and the bound follows from the theorem. -/
theorem approx_error_bound_witness :
    1 ≤ 3 ∧ 0 + incCount [Op.inc 0, Op.inc 0] < USIZE ∧
      ((ApproxCounter.run 0 3 [Op.inc 0, Op.inc 0]).get
          ≤ 0 + incCount [Op.inc 0, Op.inc 0] ∧
        0 + incCount [Op.inc 0, Op.inc 0]
            - (ApproxCounter.run 0 3 [Op.inc 0, Op.inc 0]).get
          ≤ (incTidsF [Op.inc 0, Op.inc 0]).card * (3 - 1) ∧
        ((∀ op ∈ [Op.inc 0, Op.inc 0], op = Op.inc 0) →
          0 + incCount [Op.inc 0, Op.inc 0]
              - (ApproxCounter.run 0 3 [Op.inc 0, Op.inc 0]).get
            ≤ 3 - 1)) :=
  ⟨by decide, by decide,
    approx_error_bound 0 3 [Op.inc 0, Op.inc 0] (by decide) (by decide)⟩

/-- Claim C2: a `FlushingCounter`'s `get()` equals the exact count (start plus
all increments) exactly when every thread that incremented has flushed after
its last increment; whenever the discipline is violated, `get()` is below the
true count, never above it. -/
theorem flushing_exact_iff (start : Nat) (trace : List Op)
    (hov : start + incCount trace < USIZE) :
    ((FlushingCounter.run start trace).get = start + incCount trace
        ↔ disciplined trace = true) ∧
    (FlushingCounter.run start trace).get ≤ start + incCount trace := by
  obtain ⟨hsum, hzero, hpend⟩ := flushing_run_inv start trace hov
  set c := FlushingCounter.run start trace with hc
  have hdisc : disciplined trace = true ↔ ∀ t ∈ incTids trace, pending t trace = 0 := by
    simp [disciplined]
  have hmem : ∀ t, t ∈ incTids trace ↔ t ∈ incTidsF trace := by
    intro t
    rw [incTids, incTidsF, List.mem_dedup, List.mem_toFinset]
  have hiff : (∑ t ∈ incTidsF trace, c.locals t) = 0
      ↔ ∀ t ∈ incTids trace, pending t trace = 0 := by
    rw [Finset.sum_eq_zero_iff]
    constructor
    · intro h t ht
      rw [← hpend t]
      exact h t ((hmem t).mp ht)
    · intro h t ht
      rw [hpend t]
      exact h t ((hmem t).mpr ht)
  refine ⟨?_, by rw [FlushingCounter.get]; omega⟩
  rw [FlushingCounter.get, hdisc, ← hiff]
  omega

/-- Witness for C2: one increment and one flush by thread 0, starting at 0. -/
theorem flushing_exact_iff_witness :
    0 + incCount [Op.inc 0, Op.flush 0] < USIZE ∧
      (((FlushingCounter.run 0 [Op.inc 0, Op.flush 0]).get
            = 0 + incCount [Op.inc 0, Op.flush 0]
          ↔ disciplined [Op.inc 0, Op.flush 0] = true) ∧
        (FlushingCounter.run 0 [Op.inc 0, Op.flush 0]).get
          ≤ 0 + incCount [Op.inc 0, Op.flush 0]) :=
  ⟨by decide, flushing_exact_iff 0 [Op.inc 0, Op.flush 0] (by decide)⟩

/-- Claim C3: if every thread that incremented an `ApproxCounter` flushes after
its last increment, `get()` returns exactly `start` plus the number of
increments; and `flush()` unconditionally adds the whole private accumulator to
the shared one and resets it to zero, whatever its level. -/
theorem approx_flush_exact (start res : Nat) (trace : List Op)
    (hov : start + incCount trace < USIZE)
    (hd : ∀ t ∈ incTids trace, pending t trace = 0) :
    (ApproxCounter.run start res trace).get = start + incCount trace ∧
    ∀ (c : ApproxCounter) (t : Nat),
      (c.flush t).global_counter = (c.global_counter + c.locals t) % USIZE ∧
      (c.flush t).locals t = 0 ∧
      (c.flush t).threshold = c.threshold := by
  obtain ⟨hth, hsum, hzero, hbd⟩ := approx_run_inv start res trace hov
  refine ⟨?_, fun c t => ⟨rfl, ?_, rfl⟩⟩
  · have hz : ∀ t ∈ incTidsF trace,
        (ApproxCounter.run start res trace).locals t = 0 := by
      intro t ht
      refine approx_locals_of_pending_zero start res t trace ?_
      refine hd t ?_
      rw [incTids, List.mem_dedup]
      rw [incTidsF, List.mem_toFinset] at ht
      exact ht
    have hzsum : (∑ t ∈ incTidsF trace, (ApproxCounter.run start res trace).locals t) = 0 :=
      Finset.sum_eq_zero hz
    rw [ApproxCounter.get]
    omega
  · show Function.update c.locals t 0 t = 0
    rw [Function.update_same]

/-- Witness for C3: thread 0 increments twice then flushes, with resolution 5;
`get()` returns exactly 2. -/
theorem approx_flush_exact_witness :
    0 + incCount [Op.inc 0, Op.inc 0, Op.flush 0] < USIZE ∧
      (∀ t ∈ incTids [Op.inc 0, Op.inc 0, Op.flush 0],
        pending t [Op.inc 0, Op.inc 0, Op.flush 0] = 0) ∧
      ((ApproxCounter.run 0 5 [Op.inc 0, Op.inc 0, Op.flush 0]).get
          = 0 + incCount [Op.inc 0, Op.inc 0, Op.flush 0] ∧
        ∀ (c : ApproxCounter) (t : Nat),
          (c.flush t).global_counter = (c.global_counter + c.locals t) % USIZE ∧
          (c.flush t).locals t = 0 ∧
          (c.flush t).threshold = c.threshold) :=
  ⟨by decide, by decide,
    approx_flush_exact 0 5 [Op.inc 0, Op.inc 0, Op.flush 0] (by decide) (by decide)⟩

/-- Claim C9: in the single-thread sequential model, every operation of both
buffering counters preserves the accounting invariant "shared accumulator plus
the calling thread's private accumulator = start + number of increments":
`inc` grows the total by exactly one, a flush transfers the private count
without loss or double counting, and `get` merely reads the shared
accumulator. -/
theorem buffered_ops_preserve_accounting (start n t : Nat)
    (a : ApproxCounter) (f : FlushingCounter)
    (ha : a.global_counter + a.locals t = start + n)
    (hf : f.global_counter + f.locals t = start + n)
    (hov : start + n + 1 < USIZE) :
    ((a.inc t).global_counter + (a.inc t).locals t = start + (n + 1) ∧
      (a.flush t).global_counter + (a.flush t).locals t = start + n ∧
      a.get = a.global_counter) ∧
    ((f.inc t).global_counter + (f.inc t).locals t = start + (n + 1) ∧
      (f.flush t).global_counter + (f.flush t).locals t = start + n ∧
      f.get = f.global_counter) := by
  have h1 : (a.locals t + 1) % USIZE = a.locals t + 1 := Nat.mod_eq_of_lt (by omega)
  have h2 : (a.global_counter + (a.locals t + 1)) % USIZE
      = a.global_counter + (a.locals t + 1) := Nat.mod_eq_of_lt (by omega)
  have h3 : (a.global_counter + a.locals t) % USIZE
      = a.global_counter + a.locals t := Nat.mod_eq_of_lt (by omega)
  have h4 : (f.locals t + 1) % USIZE = f.locals t + 1 := Nat.mod_eq_of_lt (by omega)
  have h5 : (f.global_counter + f.locals t) % USIZE
      = f.global_counter + f.locals t := Nat.mod_eq_of_lt (by omega)
  refine ⟨⟨?_, ?_, rfl⟩, ⟨?_, ?_, rfl⟩⟩
  · unfold ApproxCounter.inc
    dsimp only
    rw [h1]
    split
    · dsimp only
      rw [h2, Function.update_same]
      omega
    · dsimp only
      rw [Function.update_same]
      omega
  · unfold ApproxCounter.flush
    dsimp only
    rw [h3, Function.update_same]
    omega
  · unfold FlushingCounter.inc
    dsimp only
    rw [h4, Function.update_same]
    omega
  · unfold FlushingCounter.flush
    dsimp only
    rw [h5, Function.update_same]
    omega

/-- Witness for C9 at the freshly constructed counters with start value 5 and
resolution 3, observed by thread 0. -/
theorem buffered_ops_preserve_accounting_witness :
    ((ApproxCounter.new 5 3).global_counter + (ApproxCounter.new 5 3).locals 0 = 5 + 0) ∧
    ((FlushingCounter.new 5).global_counter + (FlushingCounter.new 5).locals 0 = 5 + 0) ∧
    (5 + 0 + 1 < USIZE) ∧
    ((((ApproxCounter.new 5 3).inc 0).global_counter
          + ((ApproxCounter.new 5 3).inc 0).locals 0 = 5 + (0 + 1) ∧
        ((ApproxCounter.new 5 3).flush 0).global_counter
          + ((ApproxCounter.new 5 3).flush 0).locals 0 = 5 + 0 ∧
        (ApproxCounter.new 5 3).get = (ApproxCounter.new 5 3).global_counter) ∧
      (((FlushingCounter.new 5).inc 0).global_counter
          + ((FlushingCounter.new 5).inc 0).locals 0 = 5 + (0 + 1) ∧
        ((FlushingCounter.new 5).flush 0).global_counter
          + ((FlushingCounter.new 5).flush 0).locals 0 = 5 + 0 ∧
        (FlushingCounter.new 5).get = (FlushingCounter.new 5).global_counter)) :=
  ⟨by decide, by decide, by decide,
    buffered_ops_preserve_accounting 5 0 0 (ApproxCounter.new 5 3) (FlushingCounter.new 5)
      (by decide) (by decide) (by decide)⟩

/-- Claim C10: for an `ApproxCounter` with resolution ≥ 1, after any trace the
calling thread's private accumulator is strictly below the resolution; `inc`
spills (adds the whole private value to the shared accumulator and zeroes the
private one) exactly when the incremented private value reaches the threshold,
and `flush` always leaves the private accumulator at zero. -/
theorem approx_local_below_resolution (start res : Nat) (trace : List Op) (t : Nat)
    (hres : 1 ≤ res) (hov : start + incCount trace < USIZE) :
    (ApproxCounter.run start res trace).locals t < res ∧
    (∀ c : ApproxCounter, c.locals t + 1 < USIZE →
      ((c.threshold ≤ c.locals t + 1 →
          (c.inc t).global_counter = (c.global_counter + (c.locals t + 1)) % USIZE ∧
          (c.inc t).locals t = 0) ∧
        (c.locals t + 1 < c.threshold →
          (c.inc t).global_counter = c.global_counter ∧
          (c.inc t).locals t = c.locals t + 1))) ∧
    ∀ c : ApproxCounter, (c.flush t).locals t = 0 := by
  obtain ⟨hth, hsum, hzero, hbd⟩ := approx_run_inv start res trace hov
  refine ⟨by have := hbd t; omega, ?_, ?_⟩
  · intro c hc
    have h1 : (c.locals t + 1) % USIZE = c.locals t + 1 := Nat.mod_eq_of_lt hc
    constructor
    · intro hsp
      unfold ApproxCounter.inc
      dsimp only
      rw [h1, if_pos hsp]
      refine ⟨rfl, ?_⟩
      dsimp only
      rw [Function.update_same]
    · intro hlt
      unfold ApproxCounter.inc
      dsimp only
      rw [h1, if_neg (by omega)]
      refine ⟨rfl, ?_⟩
      dsimp only
      rw [Function.update_same]
  · intro c
    show Function.update c.locals t 0 t = 0
    rw [Function.update_same]

/-- Witness for C10 with start 0, resolution 2, a single increment by
thread 0. -/
theorem approx_local_below_resolution_witness :
    1 ≤ 2 ∧ 0 + incCount [Op.inc 0] < USIZE ∧
      ((ApproxCounter.run 0 2 [Op.inc 0]).locals 0 < 2 ∧
        (∀ c : ApproxCounter, c.locals 0 + 1 < USIZE →
          ((c.threshold ≤ c.locals 0 + 1 →
              (c.inc 0).global_counter = (c.global_counter + (c.locals 0 + 1)) % USIZE ∧
              (c.inc 0).locals 0 = 0) ∧
            (c.locals 0 + 1 < c.threshold →
              (c.inc 0).global_counter = c.global_counter ∧
              (c.inc 0).locals 0 = c.locals 0 + 1))) ∧
        ∀ c : ApproxCounter, (c.flush 0).locals 0 = 0) :=
  ⟨by decide, by decide,
    approx_local_below_resolution 0 2 [Op.inc 0] 0 (by decide) (by decide)⟩

/-! ### Memory orderings of the spill and flush operations (claim C4) -/

/-- Claim C4 counterexample: the claim says every spill/flush of the buffering
counters uses sequentially consistent ordering, but `FlushingCounter::flush`
performs its `fetch_add` with `Ordering::Relaxed` (src/lib.rs:81). -/
theorem flushing_flush_not_seqcst :
    FlushingCounter.flushOrd = MemOrd.Relaxed ∧
    FlushingCounter.flushOrd ≠ MemOrd.SeqCst := by
  decide

/-- Claim C4, amended: `ApproxCounter`'s automatic spill in `inc()` and
`ApproxCounter::flush` perform their atomic additions with `SeqCst`, while
`FlushingCounter::flush` performs its atomic addition with `Relaxed`. -/
theorem spill_flush_orderings :
    ApproxCounter.incSpillOrd = MemOrd.SeqCst ∧
    ApproxCounter.flushOrd = MemOrd.SeqCst ∧
    FlushingCounter.flushOrd = MemOrd.Relaxed := by
  decide

/-! ### The primitive counter family (src/lib.rs:176-240) -/

/-- A primitive counter of bit width `w`: one atomic `w`-bit integer plus the
ordering fixed at construction.  The stored value is the `w`-bit
representation; for the signed variants it is the two's-complement bit
pattern, so `fetch_add` wraps modulo `2 ^ w` for every width and either
signedness. -/
structure PrimCounter (w : Nat) where
  value : Nat
  ordering : MemOrd

/-- Load-ordering translation used by `get` (src/lib.rs:215): `AcqRel`
downgrades to `Acquire`, every other ordering is used as configured. -/
def loadOrd : MemOrd → MemOrd
  | .AcqRel => .Acquire
  | o => o

/-- Store-ordering translation used by `set` and `reset` (src/lib.rs:221 and
src/lib.rs:233): `AcqRel` downgrades to `Release`. -/
def storeOrd : MemOrd → MemOrd
  | .AcqRel => .Release
  | o => o

/-- `new` (src/lib.rs:199-201): defaults to `SeqCst`. -/
def PrimCounter.new (w val : Nat) : PrimCounter w :=
  { value := val % 2 ^ w, ordering := MemOrd.SeqCst }

/-- `with_ordering` (src/lib.rs:208-210). -/
def PrimCounter.with_ordering (w val : Nat) (o : MemOrd) : PrimCounter w :=
  { value := val % 2 ^ w, ordering := o }

/-- `get` (src/lib.rs:214-216): loads the value; the second component records
which ordering the load used. -/
def PrimCounter.get {w : Nat} (c : PrimCounter w) : Nat × MemOrd :=
  (c.value, loadOrd c.ordering)

/-- `set` (src/lib.rs:220-222): stores the value with the store ordering. -/
def PrimCounter.set {w : Nat} (c : PrimCounter w) (val : Nat) : PrimCounter w × MemOrd :=
  ({ c with value := val % 2 ^ w }, storeOrd c.ordering)

/-- `inc` (src/lib.rs:226-228): `fetch_add(1, self.1)` — returns the previous
value, stores the wrapped successor, and uses the configured ordering with no
downgrade. -/
def PrimCounter.inc {w : Nat} (c : PrimCounter w) : (Nat × PrimCounter w) × MemOrd :=
  ((c.value, { c with value := (c.value + 1) % 2 ^ w }), c.ordering)

/-- `reset` (src/lib.rs:232-234): stores zero with the store ordering. -/
def PrimCounter.reset {w : Nat} (c : PrimCounter w) : PrimCounter w × MemOrd :=
  ({ c with value := 0 }, storeOrd c.ordering)

/-- The ten concrete instantiations (src/lib.rs:240), by bit width. -/
abbrev CounterU8 := PrimCounter 8
abbrev CounterU16 := PrimCounter 16
abbrev CounterU32 := PrimCounter 32
abbrev CounterU64 := PrimCounter 64
abbrev CounterUsize := PrimCounter 64
abbrev CounterI8 := PrimCounter 8
abbrev CounterI16 := PrimCounter 16
abbrev CounterI32 := PrimCounter 32
abbrev CounterI64 := PrimCounter 64
abbrev CounterIsize := PrimCounter 64

/-- Claim C5: for a primitive counter configured with an ordering in
{Relaxed, AcqRel, SeqCst}, `get` loads with the configured ordering except
that AcqRel downgrades to Acquire; `set` and `reset` store with the configured
ordering except that AcqRel downgrades to Release; and `inc` performs its
fetch-and-add with exactly the configured ordering. -/
theorem primitive_ordering_translation {w : Nat} (c : PrimCounter w)
    (h : c.ordering = MemOrd.Relaxed ∨ c.ordering = MemOrd.AcqRel ∨
      c.ordering = MemOrd.SeqCst) :
    (c.get).2 = (if c.ordering = MemOrd.AcqRel then MemOrd.Acquire else c.ordering) ∧
    (∀ v, (c.set v).2 = (if c.ordering = MemOrd.AcqRel then MemOrd.Release else c.ordering)) ∧
    (c.reset).2 = (if c.ordering = MemOrd.AcqRel then MemOrd.Release else c.ordering) ∧
    (c.inc).2 = c.ordering := by
  obtain h | h | h := h <;>
    simp [PrimCounter.get, PrimCounter.set, PrimCounter.reset, PrimCounter.inc,
      loadOrd, storeOrd, h]

/-- Witness for C5 at width 32 with the AcqRel ordering. -/
theorem primitive_ordering_translation_witness :
    ((PrimCounter.with_ordering 32 0 MemOrd.AcqRel).ordering = MemOrd.Relaxed ∨
      (PrimCounter.with_ordering 32 0 MemOrd.AcqRel).ordering = MemOrd.AcqRel ∨
      (PrimCounter.with_ordering 32 0 MemOrd.AcqRel).ordering = MemOrd.SeqCst) ∧
    (((PrimCounter.with_ordering 32 0 MemOrd.AcqRel).get).2
        = (if (PrimCounter.with_ordering 32 0 MemOrd.AcqRel).ordering = MemOrd.AcqRel
            then MemOrd.Acquire else (PrimCounter.with_ordering 32 0 MemOrd.AcqRel).ordering) ∧
      (∀ v, ((PrimCounter.with_ordering 32 0 MemOrd.AcqRel).set v).2
        = (if (PrimCounter.with_ordering 32 0 MemOrd.AcqRel).ordering = MemOrd.AcqRel
            then MemOrd.Release else (PrimCounter.with_ordering 32 0 MemOrd.AcqRel).ordering)) ∧
      ((PrimCounter.with_ordering 32 0 MemOrd.AcqRel).reset).2
        = (if (PrimCounter.with_ordering 32 0 MemOrd.AcqRel).ordering = MemOrd.AcqRel
            then MemOrd.Release else (PrimCounter.with_ordering 32 0 MemOrd.AcqRel).ordering) ∧
      ((PrimCounter.with_ordering 32 0 MemOrd.AcqRel).inc).2
        = (PrimCounter.with_ordering 32 0 MemOrd.AcqRel).ordering) :=
  ⟨by decide, primitive_ordering_translation (PrimCounter.with_ordering 32 0 MemOrd.AcqRel)
    (by decide)⟩

/-- Claim C6: for every width (and signedness, represented by the w-bit
pattern), `inc` returns the value held immediately before the call and leaves
the counter holding that value plus one, wrapping modulo `2 ^ w` with no
separate overflow guard. -/
theorem primitive_inc_wraps {w : Nat} (c : PrimCounter w) (hv : c.value < 2 ^ w) :
    ((c.inc).1).1 = c.value ∧
    ((c.inc).1).2.value = (c.value + 1) % 2 ^ w ∧
    ((c.inc).1).2.value < 2 ^ w ∧
    (c.value + 1 = 2 ^ w → ((c.inc).1).2.value = 0) := by
  refine ⟨rfl, rfl, ?_, ?_⟩
  · exact Nat.mod_lt _ (Nat.pos_pow_of_pos w (by omega))
  · intro hw
    show (c.value + 1) % 2 ^ w = 0
    rw [hw, Nat.mod_self]

/-- Witness for C6 at width 8 with the counter at 255: `inc` returns 255 and
wraps the stored value to 0. -/
theorem primitive_inc_wraps_witness :
    (PrimCounter.with_ordering 8 255 MemOrd.SeqCst).value < 2 ^ 8 ∧
      ((((PrimCounter.with_ordering 8 255 MemOrd.SeqCst).inc).1).1
          = (PrimCounter.with_ordering 8 255 MemOrd.SeqCst).value ∧
        (((PrimCounter.with_ordering 8 255 MemOrd.SeqCst).inc).1).2.value
          = ((PrimCounter.with_ordering 8 255 MemOrd.SeqCst).value + 1) % 2 ^ 8 ∧
        (((PrimCounter.with_ordering 8 255 MemOrd.SeqCst).inc).1).2.value < 2 ^ 8 ∧
        ((PrimCounter.with_ordering 8 255 MemOrd.SeqCst).value + 1 = 2 ^ 8 →
          (((PrimCounter.with_ordering 8 255 MemOrd.SeqCst).inc).1).2.value = 0)) :=
  ⟨by decide, primitive_inc_wraps (PrimCounter.with_ordering 8 255 MemOrd.SeqCst) (by decide)⟩

/-! ### The generic counter (src/lib.rs:244-482) -/

namespace generic

/-- The `Inc` trait (src/lib.rs:255-257): mutates a value to its successor. -/
class Inc (T : Type) where
  inc : T → T

/-- `impl Inc for usize` (src/lib.rs:259-272): `*self += 1`, wrapping. -/
instance : Inc Nat := ⟨fun n => (n + 1) % USIZE⟩

/-- Clone capability of the interior type; `clone` returning `none` models a
`Clone` implementation that panics. -/
class CloneOp (T : Type) where
  clone : T → Option T

/-- `generic::Counter<T>` (src/lib.rs:280): a mutex-protected value.  The
sequential model records the interior value and which thread, if any,
currently holds a live guard on the mutex; operations return `none` when they
would deadlock (the documented same-thread re-entry hazard). -/
structure Counter (T : Type) where
  value : T
  heldBy : Option Nat

/-- `Counter::new` (src/lib.rs:337-339): wraps the value, mutex unlocked. -/
def Counter.new {T : Type} (val : T) : Counter T :=
  { value := val, heldBy := none }

/-- `lock` (src/lib.rs:449-453): deadlocks (`none`) exactly when the calling
thread already holds a guard on this counter; otherwise yields the interior
value (a caller on another thread blocks until release and then succeeds). -/
def Counter.lock {T : Type} (c : Counter T) (tid : Nat) : Option T :=
  if c.heldBy = some tid then none else some c.value

/-- `get_borrowed` (src/lib.rs:416-419): returns the guard itself — the body
is just `self.lock()`; it performs no clone and needs no clone capability. -/
def Counter.get_borrowed {T : Type} (c : Counter T) (tid : Nat) : Option T :=
  c.lock tid

/-- `get_mut_borrowed` (src/lib.rs:426-429). -/
def Counter.get_mut_borrowed {T : Type} (c : Counter T) (tid : Nat) : Option T :=
  c.lock tid

/-- `set` (src/lib.rs:432-435): `*self.lock() = val`. -/
def Counter.set {T : Type} (c : Counter T) (tid : Nat) (val : T) : Option (Counter T) :=
  if c.heldBy = some tid then none else some { c with value := val }

/-- `inc` (src/lib.rs:438-441): `self.lock().inc()`. -/
def Counter.inc {T : Type} [Inc T] (c : Counter T) (tid : Nat) : Option (Counter T) :=
  if c.heldBy = some tid then none else some { c with value := Inc.inc c.value }

/-- `get_cloned` (src/lib.rs:461-464): `self.lock().clone()`. -/
def Counter.get_cloned {T : Type} [Inc T] [CloneOp T] (c : Counter T) (tid : Nat) : Option T :=
  (c.lock tid).bind CloneOp.clone

/-- `reset` (src/lib.rs:477-480): `self.set(T::default())`. -/
def Counter.reset {T : Type} [Inc T] [Inhabited T] (c : Counter T) (tid : Nat) :
    Option (Counter T) :=
  c.set tid default

/-- `PanicOnClone` from the repository's own tests (src/lib.rs:503-516): a
value whose clone implementation always panics and whose `inc` increments the
wrapped integer. -/
structure PanicOnClone where
  val : Int
deriving DecidableEq

instance : CloneOp PanicOnClone := ⟨fun _ => none⟩

instance : Inc PanicOnClone := ⟨fun p => { val := p.val + 1 }⟩

end generic

/-- Claim C8: `get_borrowed`, called by a thread holding no live borrow on the
instance, hands back the interior value itself without invoking the value
type's clone operation — so it succeeds even for `PanicOnClone`, whose clone
always panics (modelled by `clone` returning `none`). -/
theorem get_borrowed_no_clone (T : Type) (c : generic.Counter T) (tid : Nat)
    (h : c.heldBy ≠ some tid) :
    c.get_borrowed tid = some c.value ∧
    ∀ p : generic.PanicOnClone,
      generic.CloneOp.clone p = (none : Option generic.PanicOnClone) := by
  refine ⟨?_, fun p => rfl⟩
  rw [generic.Counter.get_borrowed, generic.Counter.lock, if_neg h]

/-- Witness for C8 on a fresh `Counter<PanicOnClone>` read by thread 0. -/
theorem get_borrowed_no_clone_witness :
    (generic.Counter.new { val := 0 : generic.PanicOnClone }).heldBy ≠ some 0 ∧
      ((generic.Counter.new { val := 0 : generic.PanicOnClone }).get_borrowed 0
          = some (generic.Counter.new { val := 0 : generic.PanicOnClone }).value ∧
        ∀ p : generic.PanicOnClone,
          generic.CloneOp.clone p = (none : Option generic.PanicOnClone)) :=
  ⟨by decide,
    get_borrowed_no_clone generic.PanicOnClone
      (generic.Counter.new { val := 0 : generic.PanicOnClone }) 0 (by decide)⟩

/-- The public instance methods of `ApproxCounter` (src/lib.rs:117-174):
`inc`, `get` and `flush` — and nothing else; in particular there is no
`reset`.  `get` returns a value and leaves the state unchanged. -/
inductive ApproxMethod where
  | inc
  | get
  | flush
deriving DecidableEq

/-- Effect of each `ApproxCounter` method on the state when called by
thread `t`. -/
def ApproxMethod.apply : ApproxMethod → ApproxCounter → Nat → ApproxCounter
  | .inc, c, t => c.inc t
  | .get, c, _ => c
  | .flush, c, t => c.flush t

/-- Claim C7 counterexample: `ApproxCounter` is a counter type exposed by the
library, yet no method it exposes behaves as a `reset`: starting from a
counter holding 5, every available method (called by thread 0) leaves a
subsequent `get()` nonzero. -/
theorem approx_has_no_reset :
    (ApproxMethod.apply ApproxMethod.inc (ApproxCounter.new 5 2) 0).get ≠ 0 ∧
    (ApproxMethod.apply ApproxMethod.get (ApproxCounter.new 5 2) 0).get ≠ 0 ∧
    (ApproxMethod.apply ApproxMethod.flush (ApproxCounter.new 5 2) 0).get ≠ 0 := by
  decide

/-- Claim C7, amended: the generic counter (for interior types with a default
value) and every primitive counter expose `reset()`, after which `get()`
returns the type's zero/default value independent of prior state; the
buffering counters (`ApproxCounter`, `FlushingCounter`) expose no reset. -/
theorem reset_zeroes_where_exposed (w : Nat) (cp : PrimCounter w)
    (T : Type) [generic.Inc T] [Inhabited T] (cg : generic.Counter T) (tid : Nat)
    (h : cg.heldBy ≠ some tid) :
    (cg.reset tid).map generic.Counter.value = some (default : T) ∧
    ((cp.reset).1).value = 0 ∧
    (((cp.reset).1).get).1 = 0 := by
  refine ⟨?_, rfl, rfl⟩
  rw [generic.Counter.reset, generic.Counter.set, if_neg h]
  rfl

/-- Witness for the amended C7: a `CounterU8` holding 9 and a
`Counter<usize>` holding 5, reset by thread 0. -/
theorem reset_zeroes_where_exposed_witness :
    (generic.Counter.new (5 : Nat)).heldBy ≠ some 0 ∧
      (((generic.Counter.new (5 : Nat)).reset 0).map generic.Counter.value
          = some (default : Nat) ∧
        (((PrimCounter.with_ordering 8 9 MemOrd.SeqCst).reset).1).value = 0 ∧
        ((((PrimCounter.with_ordering 8 9 MemOrd.SeqCst).reset).1).get).1 = 0) :=
  ⟨by decide,
    reset_zeroes_where_exposed 8 (PrimCounter.with_ordering 8 9 MemOrd.SeqCst)
      Nat (generic.Counter.new (5 : Nat)) 0 (by decide)⟩
